import Mathlib

/-!
# Verification of the Micrograd scalar autodiff engine (src/main/engine.py)

Shallow embedding of the `Value` class: a computation graph is an arena
(`State = List Value`) of node records addressed by `NodeId` (list index);
every operator of the source appends a fresh record, which models Python
object identity (two `Value` objects with equal data are distinct nodes).

Numeric data is modelled as `ℚ`: every Python float is a binary rational,
and all arithmetic appearing in the claims is exact in `ℚ`.  The single
place where CPython leaves the rationals — `float ** float` with negative
base and non-integer exponent, which falls back to complex power — is
modelled separately by `floatPow` over `ℂ`.

The per-node `_backward` closure of the source captures the operand
objects and the output object; it is modelled by the tag `BackRule`
stored in the node, and `backStep` executes exactly the captured
assignment sequence of the corresponding closure (engine.py lines 25-27,
37-39, 53-54, 75-76, 84-85, 93-94).

`_prev = set(_children)` (engine.py line 12) is a Python set keyed by
object identity: duplicates collapse and iteration order is unspecified.
It is modelled as `List.dedup` of the captured operand list; the
iteration order of the model is the first-insertion order, and every
order-dependent theorem below is stated so that it holds for the order
the model fixes.
-/

/-- Python exceptions that the modelled operations can raise. -/
inductive PyErr where
  | zeroDivisionError
  | typeError
deriving DecidableEq

abbrev NodeId := Nat

/-- Tag recording which `_backward` closure a node carries, together with
the operand node(s) the closure captured.  `none` is the leaf closure
`lambda: None` (engine.py line 14). -/
inductive BackRule where
  | none
  | addR (a b : NodeId)
  | mulR (a b : NodeId)
  | powR (a : NodeId) (e : ℤ)
  | reluR (a : NodeId)
  | expR (a : NodeId)
  | tanhR (a : NodeId)
deriving DecidableEq

/-- The operand occurrences captured by a `_backward` closure, in the
order in which the closure updates their `grad` fields. -/
def ruleSrcs : BackRule → List NodeId
  | .none => []
  | .addR a b => [a, b]
  | .mulR a b => [a, b]
  | .powR a _ => [a]
  | .reluR a => [a]
  | .expR a => [a]
  | .tanhR a => [a]

/-- One `Value` object (engine.py lines 8-15): `data`, `grad` (initially
0.0), `_prev` (a set of operand references, modelled as a deduplicated
list of arena indices), `_op`, the `_backward` closure tag, `label`. -/
structure Value where
  data : ℚ
  grad : ℚ
  prev : List NodeId
  op : String
  rule : BackRule
  label : String
deriving DecidableEq

instance : Inhabited Value :=
  ⟨⟨0, 0, [], "", .none, ""⟩⟩

/-- The arena of all constructed nodes.  A `NodeId` is an index into it. -/
abbrev State := List Value

/-- Dereference a node.  Out-of-range access (impossible in Python, where
references are always live objects) returns the default record. -/
def nd (s : State) (i : NodeId) : Value :=
  s.getD i default

/-- Append a freshly constructed node and return its id. -/
def push (s : State) (v : Value) : State × NodeId :=
  (s ++ [v], s.length)

namespace Value

/-- `Value(data, label=label)` — the leaf constructor (engine.py line 8):
no operands, grad 0.0, no-op closure. -/
def leaf (s : State) (d : ℚ) (lab : String) : State × NodeId :=
  push s ⟨d, 0, [], "", .none, lab⟩

/-- `__add__` with both operands nodes (engine.py lines 20-30):
`out = Value(self.data + other.data, _children=(self, other), _op='+')`. -/
def add (s : State) (i j : NodeId) : State × NodeId :=
  push s ⟨(nd s i).data + (nd s j).data, 0, [i, j].dedup, "+", .addR i j, ""⟩

/-- `a + c` with `c` a raw number: `other = Value(other)` promotes the raw
value to a fresh leaf node, then the ordinary add runs (engine.py line 22).
`c + a` (`__radd__`, line 61) delegates to `self + other` and builds the
identical pair of nodes. -/
def addRaw (s : State) (i : NodeId) (c : ℚ) : State × NodeId :=
  let p := leaf s c ""
  add p.1 i p.2

/-- `__mul__` with both operands nodes (engine.py lines 32-42). -/
def mul (s : State) (i j : NodeId) : State × NodeId :=
  push s ⟨(nd s i).data * (nd s j).data, 0, [i, j].dedup, "*", .mulR i j, ""⟩

/-- `a * c` with `c` raw: promotion then multiply (engine.py line 34).
`c * a` (`__rmul__`, line 66) delegates to `self * other`, identical. -/
def mulRaw (s : State) (i : NodeId) (c : ℚ) : State × NodeId :=
  let p := leaf s c ""
  mul p.1 i p.2

/-- `__neg__` (engine.py line 44): `self * -1`, i.e. multiplication by the
promoted constant node `Value(-1)`. -/
def neg (s : State) (i : NodeId) : State × NodeId :=
  mulRaw s i (-1)

/-- `__sub__` with both operands nodes (engine.py line 47):
`self + (-other)`. -/
def sub (s : State) (i j : NodeId) : State × NodeId :=
  let n := neg s j
  add n.1 i n.2

/-- `a - c` with `c` raw (engine.py line 47): `self + (-other)` where
`-other` is raw float negation, so this is `addRaw` with `-c`. -/
def subRaw (s : State) (i : NodeId) (c : ℚ) : State × NodeId :=
  addRaw s i (-c)

/-- `c - a` with `c` raw: `float.__sub__` returns NotImplemented and the
class defines no `__rsub__` (engine.py defines only `__radd__`,
`__rmul__`, `__rtruediv__`, lines 61-70), so Python raises `TypeError`
and no node is created. -/
def rsub (c : ℚ) (s : State) (i : NodeId) : Except PyErr (State × NodeId) :=
  .error .typeError

/-- `__pow__` with an integer exponent (engine.py lines 50-56):
`out = Value(self.data**other, _children=(self,), _op='pow')`.
CPython `0.0 ** e` with `e < 0` raises ZeroDivisionError before the node
is constructed; otherwise `q ^ e` is the exact value of the float power.
(The non-integer-exponent branch of CPython float power, which can leave
the reals, is modelled separately by `floatPow`.) -/
def pow (s : State) (i : NodeId) (e : ℤ) : Except PyErr (State × NodeId) :=
  if (nd s i).data = 0 ∧ e < 0 then .error .zeroDivisionError
  else .ok (push s ⟨(nd s i).data ^ e, 0, [i].dedup, "pow", .powR i e, ""⟩)

/-- `__truediv__` with both operands nodes (engine.py lines 58-59):
`self * (other ** -1)` — first the reciprocal power node, then the
product node.  If `other.data == 0`, the power raises before any node is
created. -/
def truediv (s : State) (i j : NodeId) : Except PyErr (State × NodeId) :=
  match pow s j (-1) with
  | .error e => .error e
  | .ok p => .ok (mul p.1 i p.2)

/-- `c / a` with `c` raw (`__rtruediv__`, engine.py lines 69-70):
`other * (self ** -1)`; the float-times-node product dispatches to
`__rmul__` and hence to `self * other` on the reciprocal node. -/
def rtruedivRaw (c : ℚ) (s : State) (i : NodeId) : Except PyErr (State × NodeId) :=
  match pow s i (-1) with
  | .error e => .error e
  | .ok p => .ok (mulRaw p.1 p.2 c)

/-- `relu` (engine.py lines 90-96): `out = Value(max(0, self.data))`. -/
def relu (s : State) (i : NodeId) : State × NodeId :=
  push s ⟨max 0 (nd s i).data, 0, [i].dedup, "relu", .reluR i, ""⟩

end Value

/-- `self.grad = g` — plain assignment to a node's gradient accumulator
(used for the seed, engine.py line 110). -/
def setGrad (s : State) (i : NodeId) (g : ℚ) : State :=
  s.set i { nd s i with grad := g }

/-- `target.grad += g` — accumulating update. -/
def addGrad (s : State) (i : NodeId) (g : ℚ) : State :=
  s.set i { nd s i with grad := (nd s i).grad + g }

/-- `node._backward()` (engine.py line 112): run the closure captured by
node `v`.  Each branch is the literal assignment sequence of the
corresponding closure, re-reading `out.grad` and the operand data between
the two statements exactly as the Python lines do.

For `powR`, the closure computes `other*self.data**(other-1)`; in the
(claim-irrelevant) corner `self.data == 0` with `other - 1 < 0` CPython
would raise ZeroDivisionError mid-backward, while `zpow` on `ℚ` yields 0;
no claim touches that corner. -/
def backStep (s : State) (v : NodeId) : State :=
  match (nd s v).rule with
  | .none => s
  | .addR a b =>
      let s1 := addGrad s a (1 * (nd s v).grad)
      addGrad s1 b (1 * (nd s1 v).grad)
  | .mulR a b =>
      let s1 := addGrad s a ((nd s v).grad * (nd s b).data)
      addGrad s1 b ((nd s1 v).grad * (nd s1 a).data)
  | .powR a e =>
      addGrad s a ((nd s v).grad * ((e : ℚ) * (nd s a).data ^ (e - 1)))
  | .reluR a =>
      addGrad s a (if 0 < (nd s a).data then (nd s v).grad else 0)
  | .expR a =>
      addGrad s a ((nd s v).grad * (nd s v).data)
  | .tanhR a =>
      addGrad s a ((nd s v).grad * (1 - (nd s v).data ^ 2))

/-- `build_topo` (engine.py lines 101-107).  The Python function is
recursive with no bound; the model recurses on explicit fuel, and every
theorem below only uses it with enough fuel (under `Wf`, the node ids
strictly decrease along `_prev` edges, so fuel `v + 1` suffices from node
`v`).  The accumulator pair is (`visited`, `topo`); the entry guard and
the inner `if child not in visited` guard are both present, as in the
source. -/
def Value.buildTopo (s : State) : Nat → NodeId → List NodeId × List NodeId → List NodeId × List NodeId
  | 0, _, acc => acc
  | fuel + 1, v, acc =>
      if v ∈ acc.1 then acc
      else
        let acc1 := (v :: acc.1, acc.2)
        let acc2 := (nd s v).prev.foldl
          (fun a c => if c ∈ a.1 then a else Value.buildTopo s fuel c a) acc1
        (acc2.1, acc2.2 ++ [v])

/-- The `topo` list produced by step 1 of `backward` (engine.py line 109),
before it is reversed for processing. -/
def Value.topo (s : State) (r : NodeId) : List NodeId :=
  (Value.buildTopo s s.length r ([], [])).2

/-- The order in which `backward` actually invokes the `_backward`
closures: `reversed(topo)` (engine.py line 111). -/
def execOrder (s : State) (r : NodeId) : List NodeId :=
  (Value.topo s r).reverse

/-- `backward` (engine.py lines 98-112): build `topo` from the root,
seed `self.grad = 1.0`, then call `node._backward()` for every node of
`reversed(topo)`. -/
def Value.backward (s : State) (r : NodeId) : State :=
  let t := Value.topo s r
  let s1 := setGrad s r 1
  t.reverse.foldl backStep s1

/-- Models CPython `float.__pow__` as evaluated by engine.py line 51
(`self.data**other`) for an arbitrary float exponent, with exact
arguments: `0.0 ** p` with `p < 0` raises ZeroDivisionError; a negative
base with any exponent makes CPython fall back to complex power and
return the principal value `exp(p * log x)` with no exception (for
integer exponents this complex value coincides with the real float
result, so the single formula covers both); otherwise the value is the
real power, again equal to the complex principal power.  `Value.__pow__`
performs no domain check of its own: whatever `**` returns is stored
directly as the `data` of the new node. -/
noncomputable def floatPow (x p : ℚ) : Except PyErr ℂ :=
  if x = 0 ∧ p < 0 then .error .zeroDivisionError
  else .ok ((x : ℂ) ^ ((p : ℚ) : ℂ))

/-- Well-formedness of an arena: every node's captured operands are
earlier nodes (Python builds the graph strictly forward, so an operand
object always predates its consumer), and `_prev` is exactly the
identity-set of the captured operands. -/
def Wf (s : State) : Prop :=
  ∀ i, i < s.length →
    (∀ j ∈ ruleSrcs (nd s i).rule, j < i) ∧
    (nd s i).prev = (ruleSrcs (nd s i).rule).dedup

instance (s : State) : Decidable (Wf s) := by
  unfold Wf; infer_instance

/-- Reachability through the operand relation (`_prev`), reflexively:
the subgraph that `backward(root)` traverses. -/
inductive Reaches (s : State) : NodeId → NodeId → Prop
  | refl (v : NodeId) : Reaches s v v
  | step {u v c : NodeId} : Reaches s u v → c ∈ (nd s v).prev → Reaches s u c

/-- `t` lists every operand strictly before each of its consumers: if the
entry at position `j` is an operand of the entry at position `i`, then
`j < i`. -/
def OrderedTopo (s : State) (t : List NodeId) : Prop :=
  ∀ i, i < t.length → ∀ j, j < t.length →
    t.getD j 0 ∈ (nd s (t.getD i 0)).prev → j < i

instance (s : State) (t : List NodeId) : Decidable (OrderedTopo s t) := by
  unfold OrderedTopo; infer_instance

/-- Two arenas with the same nodes up to gradient contents: equal length
and equal `data`, `_prev`, `_op`, closure tag and `label` everywhere. -/
def SameShape (s s' : State) : Prop :=
  s'.length = s.length ∧
  ∀ i, (nd s' i).data = (nd s i).data ∧
    (nd s' i).prev = (nd s i).prev ∧
    (nd s' i).op = (nd s i).op ∧
    (nd s' i).rule = (nd s i).rule ∧
    (nd s' i).label = (nd s i).label

/-! ## Basic arena lemmas -/

theorem nd_nil (i : NodeId) : nd ([] : State) i = default := by
  cases i <;> rfl

theorem nd_cons_zero (a : Value) (s : State) : nd (a :: s) 0 = a := rfl

theorem nd_cons_succ (a : Value) (s : State) (i : NodeId) :
    nd (a :: s) (i + 1) = nd s i := rfl

theorem nd_set (s : State) (i j : NodeId) (x : Value) :
    nd (s.set i x) j = if j = i ∧ i < s.length then x else nd s j := by
  induction s generalizing i j with
  | nil => simp [nd_nil, List.set]
  | cons a t ih =>
    cases i with
    | zero =>
      cases j with
      | zero => simp [List.set, nd_cons_zero]
      | succ j => simp [List.set, nd_cons_succ]
    | succ i =>
      cases j with
      | zero => simp [List.set, nd_cons_zero]
      | succ j =>
        simp only [List.set, nd_cons_succ, List.length_cons]
        rw [ih i j]
        have hc : (j = i ∧ i < t.length) ↔ (j + 1 = i + 1 ∧ i + 1 < t.length + 1) := by
          omega
        rw [if_congr hc rfl rfl]

theorem nd_append_lt (s s' : State) (i : NodeId) (h : i < s.length) :
    nd (s ++ s') i = nd s i := by
  induction s generalizing i with
  | nil => simp at h
  | cons a t ih =>
    cases i with
    | zero => rfl
    | succ i =>
      simp only [List.cons_append, nd_cons_succ]
      exact ih i (by simpa using h)

theorem nd_append_len (s : State) (x : Value) : nd (s ++ [x]) s.length = x := by
  induction s with
  | nil => rfl
  | cons a t ih => simpa [nd_cons_succ] using ih

/-! ## Frame lemmas: gradient updates touch nothing but `grad` fields -/

theorem sameShape_refl (s : State) : SameShape s s :=
  ⟨rfl, fun _ => ⟨rfl, rfl, rfl, rfl, rfl⟩⟩

theorem sameShape_trans {s1 s2 s3 : State} (h1 : SameShape s1 s2) (h2 : SameShape s2 s3) :
    SameShape s1 s3 := by
  refine ⟨h2.1.trans h1.1, fun i => ?_⟩
  obtain ⟨a1, b1, c1, d1, e1⟩ := h1.2 i
  obtain ⟨a2, b2, c2, d2, e2⟩ := h2.2 i
  exact ⟨a2.trans a1, b2.trans b1, c2.trans c1, d2.trans d1, e2.trans e1⟩

theorem sameShape_setGrad (s : State) (i : NodeId) (g : ℚ) :
    SameShape s (setGrad s i g) := by
  refine ⟨List.length_set .., fun j => ?_⟩
  unfold setGrad
  rw [nd_set]
  by_cases h : j = i ∧ i < s.length
  · rcases h with ⟨rfl, h⟩
    simp [h]
  · simp [h]

theorem sameShape_addGrad (s : State) (i : NodeId) (g : ℚ) :
    SameShape s (addGrad s i g) := by
  refine ⟨List.length_set .., fun j => ?_⟩
  unfold addGrad
  rw [nd_set]
  by_cases h : j = i ∧ i < s.length
  · rcases h with ⟨rfl, h⟩
    simp [h]
  · simp [h]

theorem sameShape_backStep (s : State) (v : NodeId) : SameShape s (backStep s v) := by
  unfold backStep
  cases (nd s v).rule <;>
    first
      | exact sameShape_refl s
      | exact sameShape_trans (sameShape_addGrad ..) (sameShape_addGrad ..)
      | exact sameShape_addGrad ..

theorem sameShape_foldl_backStep (l : List NodeId) :
    ∀ s : State, SameShape s (l.foldl backStep s) := by
  induction l with
  | nil => exact fun s => sameShape_refl s
  | cons v l ih =>
    intro s
    exact sameShape_trans (sameShape_backStep s v) (ih (backStep s v))

/-- `backward` leaves every field but `grad` of every node unchanged. -/
theorem sameShape_backward (s : State) (r : NodeId) :
    SameShape s (Value.backward s r) :=
  sameShape_trans (sameShape_setGrad s r 1)
    (sameShape_foldl_backStep (Value.topo s r).reverse (setGrad s r 1))

/-- `Wf` only reads lengths, `_prev` and closure tags, so it transfers
across `SameShape`. -/
theorem wf_of_sameShape {s s' : State} (h : SameShape s s') (hw : Wf s) : Wf s' := by
  intro i hi
  rw [h.1] at hi
  obtain ⟨-, -, -, hr, -⟩ := h.2 i
  rw [hr, (h.2 i).2.1]
  exact hw i hi

/-- `Reaches` only reads `_prev`, so it transfers across `SameShape`. -/
theorem reaches_of_sameShape {s s' : State} (h : SameShape s s') {u v : NodeId}
    (hr : Reaches s u v) : Reaches s' u v := by
  induction hr with
  | refl => exact .refl _
  | step _ hm ih => exact .step ih (by rw [(h.2 _).2.1]; exact hm)

/-! ## Gradient-frame lemmas -/

theorem grad_setGrad_self (s : State) (i : NodeId) (g : ℚ) (h : i < s.length) :
    (nd (setGrad s i g) i).grad = g := by
  unfold setGrad
  rw [nd_set]
  simp [h]

theorem grad_setGrad_ne (s : State) (i j : NodeId) (g : ℚ) (h : j ≠ i) :
    (nd (setGrad s j g) i).grad = (nd s i).grad := by
  unfold setGrad
  rw [nd_set, if_neg (fun hc => h hc.1.symm)]

theorem grad_addGrad_ne (s : State) (i j : NodeId) (g : ℚ) (h : j ≠ i) :
    (nd (addGrad s j g) i).grad = (nd s i).grad := by
  unfold addGrad
  rw [nd_set, if_neg (fun hc => h hc.1.symm)]

/-- One closure invocation writes only to the gradient accumulators of
the operands it captured. -/
theorem grad_backStep_outside (s : State) (v i : NodeId)
    (h : i ∉ ruleSrcs (nd s v).rule) :
    (nd (backStep s v) i).grad = (nd s i).grad := by
  unfold backStep
  cases hr : (nd s v).rule with
  | none => rfl
  | addR a b =>
    rw [hr] at h
    simp only [ruleSrcs, List.mem_cons, List.not_mem_nil, or_false] at h
    push_neg at h
    rw [grad_addGrad_ne _ _ _ _ (Ne.symm h.2), grad_addGrad_ne _ _ _ _ (Ne.symm h.1)]
  | mulR a b =>
    rw [hr] at h
    simp only [ruleSrcs, List.mem_cons, List.not_mem_nil, or_false] at h
    push_neg at h
    rw [grad_addGrad_ne _ _ _ _ (Ne.symm h.2), grad_addGrad_ne _ _ _ _ (Ne.symm h.1)]
  | powR a e =>
    rw [hr] at h
    simp only [ruleSrcs, List.mem_singleton] at h
    rw [grad_addGrad_ne _ _ _ _ (Ne.symm h)]
  | reluR a =>
    rw [hr] at h
    simp only [ruleSrcs, List.mem_singleton] at h
    rw [grad_addGrad_ne _ _ _ _ (Ne.symm h)]
  | expR a =>
    rw [hr] at h
    simp only [ruleSrcs, List.mem_singleton] at h
    rw [grad_addGrad_ne _ _ _ _ (Ne.symm h)]
  | tanhR a =>
    rw [hr] at h
    simp only [ruleSrcs, List.mem_singleton] at h
    rw [grad_addGrad_ne _ _ _ _ (Ne.symm h)]

/-! ## Generic list-index lemmas -/

theorem getD_append_lt {α : Type} (l l' : List α) (d : α) (k : Nat) (h : k < l.length) :
    (l ++ l').getD k d = l.getD k d := by
  induction l generalizing k with
  | nil => simp at h
  | cons a tl ih =>
    cases k with
    | zero => rfl
    | succ k => simpa using ih k (by simpa using h)

theorem getD_append_len {α : Type} (l : List α) (v d : α) :
    (l ++ [v]).getD l.length d = v := by
  induction l with
  | nil => rfl
  | cons a tl ih => simpa using ih

theorem getD_mem {α : Type} (l : List α) (d : α) (k : Nat) (h : k < l.length) :
    l.getD k d ∈ l := by
  induction l generalizing k with
  | nil => simp at h
  | cons a tl ih =>
    cases k with
    | zero => exact List.mem_cons_self a tl
    | succ k => exact List.mem_cons_of_mem a (ih k (by simpa using h))

/-! ## Invariants of the depth-first traversal `build_topo` -/

/-- Invariant of the accumulator pair (`visited`, `topo`) of `build_topo`
relative to a well-formed arena and the root `r`:
the finished part `topo` has no duplicates, is contained in `visited`,
already contains every operand of each of its members, and lists
operands strictly before consumers; everything ever visited is in range
and reachable from the root. -/
structure TopoInv (s : State) (r : NodeId) (vis t : List NodeId) : Prop where
  nodup : t.Nodup
  sub : ∀ x ∈ t, x ∈ vis
  closed : ∀ v ∈ t, ∀ c ∈ (nd s v).prev, c ∈ t
  ordered : OrderedTopo s t
  bounded : ∀ x ∈ vis, x < s.length
  reach : ∀ x ∈ vis, Reaches s r x

/-- What one (sufficiently fuelled) call `build_topo(v)` guarantees,
starting from accumulator (`vis`, `t`): the invariant still holds, `topo`
grew by appending, `visited` grew, the pending set `visited \ topo` (the
recursion stack) is unchanged, and `v` itself ended up in `topo` unless it
was already pending. -/
structure BTOut (s : State) (r v : NodeId) (vis t : List NodeId)
    (res : List NodeId × List NodeId) : Prop where
  inv : TopoInv s r res.1 res.2
  pre : ∃ d, res.2 = t ++ d
  vmono : ∀ x ∈ vis, x ∈ res.1
  pend : ∀ p, (p ∈ res.1 ∧ p ∉ res.2) ↔ (p ∈ vis ∧ p ∉ t)
  memv : v ∈ res.2 ∨ (v ∈ vis ∧ v ∉ t)

/-- The full correctness statement of `build_topo` at a given fuel:
every call on a reachable in-range node `v` with `v < fuel`, whose
pending nodes all lie strictly above `v`, satisfies `BTOut`. -/
def BTSpec (s : State) (r : NodeId) (fuel : Nat) : Prop :=
  ∀ v vis t, v < fuel → v < s.length → Reaches s r v → TopoInv s r vis t →
    (∀ p ∈ vis, p ∉ t → v < p) →
    BTOut s r v vis t (Value.buildTopo s fuel v (vis, t))

theorem buildTopo_succ (s : State) (fuel : Nat) (v : NodeId)
    (acc : List NodeId × List NodeId) :
    Value.buildTopo s (fuel + 1) v acc =
      if v ∈ acc.1 then acc
      else
        (((nd s v).prev.foldl
            (fun a c => if c ∈ a.1 then a else Value.buildTopo s fuel c a)
            (v :: acc.1, acc.2)).1,
         ((nd s v).prev.foldl
            (fun a c => if c ∈ a.1 then a else Value.buildTopo s fuel c a)
            (v :: acc.1, acc.2)).2 ++ [v]) := by
  rw [Value.buildTopo]

/-- Appending a fresh node that is not its own operand preserves the
order property, provided the list is operand-closed. -/
theorem orderedTopo_append (s : State) (t : List NodeId) (v : NodeId)
    (ho : OrderedTopo s t) (hc : ∀ x ∈ t, ∀ c ∈ (nd s x).prev, c ∈ t)
    (hv : v ∉ t) (hvv : v ∉ (nd s v).prev) :
    OrderedTopo s (t ++ [v]) := by
  intro i hi j hj hmem
  rw [List.length_append, List.length_singleton] at hi hj
  rcases Nat.lt_or_ge i t.length with hi' | hi'
  · rcases Nat.lt_or_ge j t.length with hj' | hj'
    · rw [getD_append_lt _ _ _ _ hi', getD_append_lt _ _ _ _ hj'] at hmem
      exact ho i hi' j hj' hmem
    · have hj'' : j = t.length := by omega
      subst hj''
      rw [getD_append_lt _ _ _ _ hi', getD_append_len] at hmem
      exact absurd (hc _ (getD_mem t 0 i hi') v hmem) hv
  · have hi'' : i = t.length := by omega
    subst hi''
    rcases Nat.lt_or_ge j t.length with hj' | hj'
    · omega
    · have hj'' : j = t.length := by omega
      subst hj''
      rw [getD_append_len] at hmem
      exact absurd hmem hvv

/-- Under `Wf`, an operand's id is strictly below its consumer's id. -/
theorem prev_lt_of_wf {s : State} (hw : Wf s) {v c : NodeId} (hv : v < s.length)
    (hc : c ∈ (nd s v).prev) : c < v := by
  obtain ⟨hlt, hprev⟩ := hw v hv
  rw [hprev] at hc
  exact hlt c (List.mem_dedup.mp hc)

/-- A node is never its own operand in a well-formed arena. -/
theorem not_self_prev_of_wf {s : State} (hw : Wf s) {v : NodeId} (hv : v < s.length) :
    v ∉ (nd s v).prev := fun h => absurd (prev_lt_of_wf hw hv h) (lt_irrefl v)

/-- Correctness of the `for child in v._prev` loop of `build_topo`
(engine.py lines 104-106), given the recursion spec at the child fuel:
the invariant and pending set are preserved, `topo` and `visited` only
grow, and every processed child ends up in `topo`. -/
theorem buildTopo_children_spec (s : State) (hw : Wf s) (r : NodeId) (fuel : Nat)
    (hspec : BTSpec s r fuel) (v : NodeId) (hv : v < s.length) (hvf : v ≤ fuel)
    (hrv : Reaches s r v) :
    ∀ cs : List NodeId, (∀ c ∈ cs, c ∈ (nd s v).prev) →
    ∀ vis t, v ∈ vis → TopoInv s r vis t → (∀ p ∈ vis, p ∉ t → v ≤ p) →
    TopoInv s r
        (cs.foldl (fun a c => if c ∈ a.1 then a else Value.buildTopo s fuel c a) (vis, t)).1
        (cs.foldl (fun a c => if c ∈ a.1 then a else Value.buildTopo s fuel c a) (vis, t)).2 ∧
      (∃ d, (cs.foldl (fun a c => if c ∈ a.1 then a else Value.buildTopo s fuel c a) (vis, t)).2 = t ++ d) ∧
      (∀ x ∈ vis, x ∈ (cs.foldl (fun a c => if c ∈ a.1 then a else Value.buildTopo s fuel c a) (vis, t)).1) ∧
      (∀ p, (p ∈ (cs.foldl (fun a c => if c ∈ a.1 then a else Value.buildTopo s fuel c a) (vis, t)).1 ∧
             p ∉ (cs.foldl (fun a c => if c ∈ a.1 then a else Value.buildTopo s fuel c a) (vis, t)).2) ↔
            (p ∈ vis ∧ p ∉ t)) ∧
      (∀ c ∈ cs, c ∈ (cs.foldl (fun a c => if c ∈ a.1 then a else Value.buildTopo s fuel c a) (vis, t)).2) := by
  intro cs
  induction cs with
  | nil =>
    intro _ vis t _ hinv _
    exact ⟨hinv, ⟨[], (List.append_nil t).symm⟩, fun x hx => hx, fun p => Iff.rfl,
      fun c hc => absurd hc (List.not_mem_nil c)⟩
  | cons c cs ih =>
    intro hcs vis t hvvis hinv hpend
    have hcprev : c ∈ (nd s v).prev := hcs c (List.mem_cons_self c cs)
    have hcv : c < v := prev_lt_of_wf hw hv hcprev
    have hcs' : ∀ x ∈ cs, x ∈ (nd s v).prev := fun x hx => hcs x (List.mem_cons_of_mem c hx)
    rw [List.foldl_cons]
    by_cases hmem : c ∈ vis
    · have hct : c ∈ t := by
        by_contra hct
        exact absurd (hpend c hmem hct) (not_le.mpr hcv)
      simp only [hmem, if_true]
      obtain ⟨Rinv, ⟨d, hd⟩, Rvmono, Rpend, Rall⟩ := ih hcs' vis t hvvis hinv hpend
      refine ⟨Rinv, ⟨d, hd⟩, Rvmono, Rpend, fun x hx => ?_⟩
      rcases List.mem_cons.mp hx with rfl | hx'
      · rw [hd]; exact List.mem_append_left d hct
      · exact Rall x hx'
    · simp only [hmem, if_false]
      have O : BTOut s r c vis t (Value.buildTopo s fuel c (vis, t)) :=
        hspec c vis t (lt_of_lt_of_le hcv hvf) (hcv.trans hv) (hrv.step hcprev) hinv
          (fun p hp hpt => lt_of_lt_of_le hcv (hpend p hp hpt))
      have hct1 : c ∈ (Value.buildTopo s fuel c (vis, t)).2 := by
        rcases O.memv with h | h
        · exact h
        · exact absurd h.1 hmem
      obtain ⟨Rinv, ⟨d2, hd2⟩, Rvmono, Rpend, Rall⟩ :=
        ih hcs' (Value.buildTopo s fuel c (vis, t)).1 (Value.buildTopo s fuel c (vis, t)).2
          (O.vmono v hvvis) O.inv
          (fun p hp hpt => by
            have := (O.pend p).mp ⟨hp, hpt⟩
            exact hpend p this.1 this.2)
      obtain ⟨d1, hd1⟩ := O.pre
      refine ⟨Rinv, ⟨d1 ++ d2, by rw [hd2, hd1, List.append_assoc]⟩,
        fun x hx => Rvmono x (O.vmono x hx),
        fun p => (Rpend p).trans (O.pend p),
        fun x hx => ?_⟩
      rcases List.mem_cons.mp hx with rfl | hx'
      · rw [hd2]; exact List.mem_append_left d2 hct1
      · exact Rall x hx'

/-- Correctness of `build_topo` for every sufficient fuel, by induction
on the fuel: under `Wf`, ids strictly decrease along `_prev` edges, so
fuel `v + 1` always suffices from node `v`. -/
theorem buildTopo_spec (s : State) (hw : Wf s) (r : NodeId) :
    ∀ fuel, BTSpec s r fuel := by
  intro fuel
  induction fuel with
  | zero => exact fun v vis t hvf _ _ _ _ => absurd hvf (Nat.not_lt_zero v)
  | succ fuel ih =>
    intro v vis t hvf hv hrv hinv hpend
    rw [buildTopo_succ]
    by_cases hmem : v ∈ vis
    · rw [if_pos hmem]
      exact { inv := hinv, pre := ⟨[], (List.append_nil t).symm⟩,
              vmono := fun x hx => hx, pend := fun p => Iff.rfl,
              memv := if hvt : v ∈ t then Or.inl hvt else Or.inr ⟨hmem, hvt⟩ }
    · rw [if_neg hmem]
      have hinv1 : TopoInv s r (v :: vis) t :=
        { nodup := hinv.nodup
          sub := fun x hx => List.mem_cons_of_mem v (hinv.sub x hx)
          closed := hinv.closed
          ordered := hinv.ordered
          bounded := fun x hx => by
            rcases List.mem_cons.mp hx with rfl | hx'
            · exact hv
            · exact hinv.bounded x hx'
          reach := fun x hx => by
            rcases List.mem_cons.mp hx with rfl | hx'
            · exact hrv
            · exact hinv.reach x hx' }
      have hpend1 : ∀ p ∈ (v :: vis), p ∉ t → v ≤ p := by
        intro p hp hpt
        rcases List.mem_cons.mp hp with rfl | hp'
        · exact le_refl p
        · exact le_of_lt (hpend p hp' hpt)
      have hvt : v ∉ t := fun h => hmem (hinv.sub v h)
      obtain ⟨Cinv, ⟨d, hd⟩, Cvmono, Cpend, Call⟩ :=
        buildTopo_children_spec s hw r fuel ih v hv (Nat.lt_succ_iff.mp hvf) hrv
          (nd s v).prev (fun c hc => hc) (v :: vis) t (List.mem_cons_self v vis)
          hinv1 hpend1
      have hvpend :
          v ∈ ((nd s v).prev.foldl
              (fun a c => if c ∈ a.1 then a else Value.buildTopo s fuel c a)
              (v :: vis, t)).1 ∧
          v ∉ ((nd s v).prev.foldl
              (fun a c => if c ∈ a.1 then a else Value.buildTopo s fuel c a)
              (v :: vis, t)).2 :=
        (Cpend v).mpr ⟨List.mem_cons_self v vis, hvt⟩
      refine { inv := ?_, pre := ⟨d ++ [v], by rw [hd, List.append_assoc]⟩,
               vmono := fun x hx => Cvmono x (List.mem_cons_of_mem v hx),
               pend := ?_, memv := Or.inl (List.mem_append_right _ (List.mem_singleton_self v)) }
      · refine { nodup := ?_, sub := ?_, closed := ?_, ordered := ?_,
                 bounded := Cinv.bounded, reach := Cinv.reach }
        · exact List.Nodup.append Cinv.nodup (List.nodup_singleton v)
            (fun x hx hx' => hvpend.2 ((List.mem_singleton.mp hx') ▸ hx))
        · intro x hx
          rcases List.mem_append.mp hx with hx' | hx'
          · exact Cinv.sub x hx'
          · exact (List.mem_singleton.mp hx') ▸ hvpend.1
        · intro x hx c hc
          rcases List.mem_append.mp hx with hx' | hx'
          · exact List.mem_append_left _ (Cinv.closed x hx' c hc)
          · rw [List.mem_singleton.mp hx'] at hc
            exact List.mem_append_left _ (Call c hc)
        · exact orderedTopo_append s _ v Cinv.ordered Cinv.closed hvpend.2
            (not_self_prev_of_wf hw hv)
      · intro p
        constructor
        · rintro ⟨hp1, hp2⟩
          have hp2' : p ∉ ((nd s v).prev.foldl
              (fun a c => if c ∈ a.1 then a else Value.buildTopo s fuel c a)
              (v :: vis, t)).2 := fun h => hp2 (List.mem_append_left _ h)
          have hpv : p ≠ v :=
            fun h => hp2 (List.mem_append_right _ (h ▸ List.mem_singleton_self v))
          have hq := (Cpend p).mp ⟨hp1, hp2'⟩
          rcases List.mem_cons.mp hq.1 with h | h
          · exact absurd h hpv
          · exact ⟨h, hq.2⟩
        · rintro ⟨hp1, hp2⟩
          have hpv : p ≠ v := fun h => hmem (h ▸ hp1)
          have hq := (Cpend p).mpr ⟨List.mem_cons_of_mem v hp1, hp2⟩
          refine ⟨hq.1, fun h => ?_⟩
          rcases List.mem_append.mp h with h' | h'
          · exact hq.2 h'
          · exact hpv (List.mem_singleton.mp h')

/-- Summary of what step 1 of `backward` guarantees for the `topo` list
on a well-formed arena: no duplicates, operand-closed, operands listed
strictly before consumers, all entries in range and reachable from the
root, and the root itself present. -/
theorem topo_spec (s : State) (r : NodeId) (hw : Wf s) (hr : r < s.length) :
    (Value.topo s r).Nodup ∧
    (∀ v ∈ Value.topo s r, ∀ c ∈ (nd s v).prev, c ∈ Value.topo s r) ∧
    OrderedTopo s (Value.topo s r) ∧
    (∀ v ∈ Value.topo s r, v < s.length) ∧
    (∀ v ∈ Value.topo s r, Reaches s r v) ∧
    r ∈ Value.topo s r := by
  have hinv0 : TopoInv s r [] [] :=
    { nodup := List.nodup_nil
      sub := fun x hx => absurd hx (List.not_mem_nil x)
      closed := fun x hx => absurd hx (List.not_mem_nil x)
      ordered := fun i hi => absurd hi (Nat.not_lt_zero i)
      bounded := fun x hx => absurd hx (List.not_mem_nil x)
      reach := fun x hx => absurd hx (List.not_mem_nil x) }
  have O : BTOut s r r [] [] (Value.buildTopo s s.length r ([], [])) :=
    buildTopo_spec s hw r s.length r [] [] hr hr (.refl r) hinv0
      (fun p hp => absurd hp (List.not_mem_nil p))
  have htopo : Value.topo s r = (Value.buildTopo s s.length r ([], [])).2 := rfl
  have hrt : r ∈ Value.topo s r := by
    rw [htopo]
    rcases O.memv with h | h
    · exact h
    · exact absurd h.1 (List.not_mem_nil r)
  refine ⟨?_, ?_, ?_, ?_, ?_, hrt⟩
  · rw [htopo]; exact O.inv.nodup
  · rw [htopo]; exact O.inv.closed
  · rw [htopo]; exact O.inv.ordered
  · rw [htopo]; exact fun v hv => O.inv.bounded v (O.inv.sub v hv)
  · rw [htopo]; exact fun v hv => O.inv.reach v (O.inv.sub v hv)

theorem nd_out (s : State) (v : NodeId) (h : s.length ≤ v) : nd s v = default := by
  unfold nd
  induction s generalizing v with
  | nil => cases v <;> rfl
  | cons a t ih =>
    cases v with
    | zero => simp at h
    | succ v => simpa using ih v (by simpa using h)

/-- In a well-formed arena every node reachable from `u` has id at most
`u`: `_prev` edges strictly decrease the id. -/
theorem reach_le_of_wf {s : State} (hw : Wf s) {u v : NodeId}
    (h : Reaches s u v) : v ≤ u := by
  induction h with
  | refl => exact le_refl _
  | step h1 hm ih =>
    rename_i v' c'
    rcases Nat.lt_or_ge v' s.length with hv | hv
    · exact le_of_lt (lt_of_lt_of_le (prev_lt_of_wf hw hv hm) ih)
    · rw [nd_out s v' hv] at hm
      exact absurd hm (List.not_mem_nil c')

/-- Folding `backStep` over a list of nodes leaves untouched the
gradient of any node that is not a captured operand of any of them. -/
theorem foldl_backStep_grad_outside (s0 : State) (R : NodeId → Prop) :
    ∀ (l : List NodeId) (s : State), SameShape s0 s →
      (∀ v ∈ l, ∀ a ∈ ruleSrcs (nd s0 v).rule, R a) →
      ∀ i, ¬ R i → (nd (l.foldl backStep s) i).grad = (nd s i).grad := by
  intro l
  induction l with
  | nil => exact fun s _ _ i _ => rfl
  | cons v l ih =>
    intro s hs hl i hiR
    rw [List.foldl_cons]
    have hs' : SameShape s0 (backStep s v) :=
      sameShape_trans hs (sameShape_backStep s v)
    have hstep : (nd (backStep s v) i).grad = (nd s i).grad := by
      apply grad_backStep_outside
      intro hmem
      have hrr : (nd s v).rule = (nd s0 v).rule := (hs.2 v).2.2.2.1
      rw [hrr] at hmem
      exact hiR (hl v (List.mem_cons_self v l) i hmem)
    rw [ih (backStep s v) hs' (fun w hw => hl w (List.mem_cons_of_mem v hw)) i hiR,
      hstep]

/-- After `backward`, the root's gradient is exactly the seed 1.0: the
root has no consumer inside the traversed subgraph, so no closure ever
accumulates into it. -/
theorem backward_root_grad (s : State) (r : NodeId) (hw : Wf s) (hr : r < s.length) :
    (nd (Value.backward s r) r).grad = 1 := by
  obtain ⟨-, -, -, hbnd, hreach, -⟩ := topo_spec s r hw hr
  have hout : ∀ v ∈ (Value.topo s r).reverse, ∀ a ∈ ruleSrcs (nd s v).rule, a ≠ r := by
    intro v hv a ha har
    rw [List.mem_reverse] at hv
    have hvlen : v < s.length := hbnd v hv
    have hlt : a < v := ((hw v hvlen).1) a ha
    have hle : v ≤ r := reach_le_of_wf hw (hreach v hv)
    subst har
    exact absurd (lt_of_lt_of_le hlt hle) (lt_irrefl a)
  have hb : Value.backward s r
      = (Value.topo s r).reverse.foldl backStep (setGrad s r 1) := rfl
  rw [hb,
    foldl_backStep_grad_outside s (fun a => a ≠ r) (Value.topo s r).reverse
      (setGrad s r 1) (sameShape_setGrad s r 1) hout r (fun h => h rfl)]
  exact grad_setGrad_self s r 1 hr

/-! ## Concrete graphs used as test fixtures -/

/-- `x = Value(2.0); y = x + 1` — arena `[x, promoted 1, y]`, root 2. -/
def addOneS : State := (Value.addRaw (Value.leaf [] 2 "x").1 0 1).1

/-- `x = Value(d); y = x * x` — arena `[x, y]`, root 1. -/
def sqGraph (d : ℚ) : State := (Value.mul (Value.leaf [] d "x").1 0 0).1

/-- `x = Value(3.0); y = x * x` — concrete instance of `sqGraph`. -/
def sqS : State := (Value.mul (Value.leaf [] 3 "x").1 0 0).1

/-- `x = Value(1.0); y = x * 2; z = y * 3` — arena
`[x, promoted 2, y, promoted 3, z]`, root 4. -/
def chainS : State := (Value.mulRaw (Value.mulRaw (Value.leaf [] 1 "x").1 0 2).1 2 3).1

/-- `z = Value(0.0)` — a single zero-valued leaf. -/
def zeroS : State := (Value.leaf [] 0 "z").1

/-- `a = Value(2.0)` — a single leaf. -/
def twoS : State := (Value.leaf [] 2 "a").1

/-- `x = Value(d); r = relu(x)` — arena `[x, r]`, root 1. -/
def reluG (d : ℚ) : State := (Value.relu (Value.leaf [] d "x").1 0).1

theorem getD_reverse {α : Type} (l : List α) (d : α) (k : Nat) (h : k < l.length) :
    l.reverse.getD k d = l.getD (l.length - 1 - k) d := by
  have h2 : l.length - 1 - k < l.length := by omega
  rw [List.getD_eq_getElem l d h2, ← List.getElem_reverse,
    List.getD_eq_getElem l.reverse d (by simpa using h)]

/-! ## Claim theorems -/

/-- C1: during `backward(root)` the closures run in the order
`reversed(topo)`; whenever one invoked node is an operand of another
invoked node, the consumer's closure runs strictly earlier, so a node's
accumulator has already received every contribution of this pass when
its own closure reads it.  (A consumer that is not reachable from the
root is never invoked during this pass and never contributes to it.) -/
theorem backward_consumers_run_first (s : State) (r : NodeId)
    (hw : Wf s) (hr : r < s.length) :
    ∀ i, i < (execOrder s r).length → ∀ j, j < (execOrder s r).length →
      (execOrder s r).getD j 0 ∈ (nd s ((execOrder s r).getD i 0)).prev → i < j := by
  intro i hi j hj hmem
  obtain ⟨-, -, hord, -, -, -⟩ := topo_spec s r hw hr
  have hlen : (execOrder s r).length = (Value.topo s r).length := by
    unfold execOrder
    exact List.length_reverse _
  rw [hlen] at hi hj
  unfold execOrder at hmem
  rw [getD_reverse _ _ i hi, getD_reverse _ _ j hj] at hmem
  have := hord ((Value.topo s r).length - 1 - i) (by omega)
    ((Value.topo s r).length - 1 - j) (by omega) hmem
  omega

theorem backward_consumers_run_first_witness :
    Wf addOneS ∧ 2 < addOneS.length ∧
    (∀ i, i < (execOrder addOneS 2).length → ∀ j, j < (execOrder addOneS 2).length →
      (execOrder addOneS 2).getD j 0 ∈ (nd addOneS ((execOrder addOneS 2).getD i 0)).prev →
      i < j) :=
  ⟨by decide, by decide, backward_consumers_run_first addOneS 2 (by decide) (by decide)⟩

/-- C4 counterexample: for the concrete graph `y = x + 1` the topo list
(before reversal) is `[0, 1, 2]` — the root comes last — so it is *not*
an order in which every node appears strictly before its own operands:
node 2 has operand 0 yet appears after it. -/
theorem topo_not_consumers_first :
    Value.topo addOneS 2 = [0, 1, 2] ∧
    ¬ (∀ i, i < (Value.topo addOneS 2).length →
        ∀ j, j < (Value.topo addOneS 2).length →
        (Value.topo addOneS 2).getD j 0 ∈ (nd addOneS ((Value.topo addOneS 2).getD i 0)).prev →
        i < j) := by
  constructor
  · rfl
  · intro hcl
    exact absurd (hcl 2 (by decide) 0 (by decide) (by decide)) (by decide)

/-- C4 (amended): the topo list produced by the depth-first traversal,
*before* it is reversed for processing, lists every node strictly after
all of its own operands (which all occur in it) and hence strictly
before every consumer of it that occurs in it; the orientation stated by
the claim — after consumers, before operands — is the one of the
*reversed* list that `backward` actually processes. -/
theorem topo_operands_come_first (s : State) (r : NodeId)
    (hw : Wf s) (hr : r < s.length) :
    (∀ v ∈ Value.topo s r, ∀ c ∈ (nd s v).prev, c ∈ Value.topo s r) ∧
    OrderedTopo s (Value.topo s r) := by
  obtain ⟨-, hcl, hord, -, -, -⟩ := topo_spec s r hw hr
  exact ⟨hcl, hord⟩

theorem topo_operands_come_first_witness :
    Wf addOneS ∧ 2 < addOneS.length ∧
    ((∀ v ∈ Value.topo addOneS 2, ∀ c ∈ (nd addOneS v).prev, c ∈ Value.topo addOneS 2) ∧
      OrderedTopo addOneS (Value.topo addOneS 2)) :=
  ⟨by decide, by decide, topo_operands_come_first addOneS 2 (by decide) (by decide)⟩

/-- C2: for a fresh leaf `x` (gradient 0.0) and `y = x * x`,
`backward(y)` leaves `x.grad == 2 * x.data`: the multiply closure runs
once and adds `out.grad*other.data` and then `out.grad*self.data`, both
aliases of `x`, so the two contributions sum instead of overwriting or
being counted once. -/
theorem mul_self_backward_grad (d : ℚ) :
    (nd (sqGraph d) 0).grad = 0 ∧
    (nd (Value.backward (sqGraph d) 1) 0).grad = 2 * (nd (sqGraph d) 0).data := by
  constructor
  · rfl
  · show (0 : ℚ) + 1 * d + 1 * d = 2 * d
    ring

/-- C3 counterexample: on the chain `x = Value(1); y = x*2; z = y*3`,
the first `backward(z)` gives `x.grad = 6`, but a second `backward(z)`
without reset gives `x.grad = 18`, not `2 * 6 = 12`: the second pass
multiplies the already-doubled intermediate gradient down the chain.
The root itself stays at `1`, not `2`. -/
theorem backward_twice_not_double :
    (nd (Value.backward chainS 4) 0).grad = 6 ∧
    (nd (Value.backward (Value.backward chainS 4) 4) 0).grad = 18 ∧
    (nd (Value.backward chainS 4) 4).grad = 1 ∧
    (nd (Value.backward (Value.backward chainS 4) 4) 4).grad = 1 ∧
    ¬ ((18 : ℚ) = 2 * 6) ∧ ¬ ((1 : ℚ) = 2 * 1) :=
  ⟨by with_unfolding_all rfl, by with_unfolding_all rfl, by with_unfolding_all rfl,
   by with_unfolding_all rfl, by norm_num, by norm_num⟩

/-- C3 (amended): gradients are not reset between calls — the second
`backward` accumulates further contributions on top of the stored values
— but the result is not a uniform doubling: the root's gradient is
re-seeded by assignment and equals exactly 1.0 after the second call,
and deeper nodes can receive more than twice their first-pass value
(see the counterexample: 18 vs 6 on a two-multiplication chain). -/
theorem backward_twice_root_reseeded (s : State) (r : NodeId)
    (hw : Wf s) (hr : r < s.length) :
    (nd (Value.backward (Value.backward s r) r) r).grad = 1 := by
  have hss := sameShape_backward s r
  exact backward_root_grad (Value.backward s r) r (wf_of_sameShape hss hw)
    (by rw [hss.1]; exact hr)

theorem backward_twice_root_reseeded_witness :
    Wf chainS ∧ 4 < chainS.length ∧
    (nd (Value.backward (Value.backward chainS 4) 4) 4).grad = 1 :=
  ⟨by decide, by decide, backward_twice_root_reseeded chainS 4 (by decide) (by decide)⟩

/-- C8 counterexample: `_prev = set(_children)` collapses duplicates,
so for `y = x * x` the operands field of `y` holds a single entry, not
one entry per operand position. -/
theorem operands_not_one_per_position :
    (nd sqS 1).prev.length = 1 ∧ ¬ (nd sqS 1).prev.length = 2 := by
  decide

theorem dedup_single (a : NodeId) : [a].dedup = [a] := by
  rw [List.dedup_cons_of_not_mem (List.not_mem_nil a), List.dedup_nil]

theorem dedup_pair (i j : NodeId) : [i, j].dedup = if i = j then [j] else [i, j] := by
  by_cases hij : i = j
  · subst hij
    rw [if_pos rfl, List.dedup_cons_of_mem (List.mem_singleton_self i), dedup_single]
  · rw [if_neg hij,
      List.dedup_cons_of_not_mem (fun hc => hij (List.mem_singleton.mp hc)),
      dedup_single]

/-- C8 (amended): the operands field is the identity-*set* of the
captured operands (a Python `set`, deduplicated, with no meaningful
order): empty for a leaf, two entries for a binary operation on two
distinct nodes, but a single entry when both operand positions hold the
same node, as in `x * x`. -/
theorem operands_are_identity_set (s : State) (i j : NodeId) (d : ℚ) (lab : String) :
    (nd (Value.leaf s d lab).1 (Value.leaf s d lab).2).prev = [] ∧
    (nd (Value.mul s i j).1 (Value.mul s i j).2).prev = (if i = j then [j] else [i, j]) ∧
    (nd (Value.add s i j).1 (Value.add s i j).2).prev = (if i = j then [j] else [i, j]) := by
  refine ⟨?_, ?_, ?_⟩
  · unfold Value.leaf push
    rw [nd_append_len]
  · unfold Value.mul push
    rw [nd_append_len]
    exact dedup_pair i j
  · unfold Value.add push
    rw [nd_append_len]
    exact dedup_pair i j

/-- C9: for a fresh leaf `a`, `backward(relu(a))` leaves `a.grad = 0`
when `a.data ≤ 0` (the closure's `if self.data > 0` test fails at 0, the
subgradient choice) and `a.grad = 1` — the unchanged seed — when
`a.data > 0`. -/
theorem relu_backward_subgradient (d : ℚ) :
    (d ≤ 0 → (nd (Value.backward (reluG d) 1) 0).grad = 0) ∧
    (0 < d → (nd (Value.backward (reluG d) 1) 0).grad = 1) := by
  constructor
  · intro h
    show (0 : ℚ) + (if 0 < d then (1 : ℚ) else 0) = 0
    rw [if_neg (not_lt.mpr h)]
    norm_num
  · intro h
    show (0 : ℚ) + (if 0 < d then (1 : ℚ) else 0) = 1
    rw [if_pos h]
    norm_num

theorem relu_backward_subgradient_witness :
    ((-1 : ℚ) ≤ 0 ∧ (nd (Value.backward (reluG (-1)) 1) 0).grad = 0) ∧
    ((0 : ℚ) < 2 ∧ (nd (Value.backward (reluG 2) 1) 0).grad = 1) :=
  ⟨⟨neg_nonpos.mpr zero_le_one, (relu_backward_subgradient (-1)).1 (neg_nonpos.mpr zero_le_one)⟩,
   ⟨zero_lt_two, (relu_backward_subgradient 2).2 zero_lt_two⟩⟩

/-- C10: `backward(root)` only ever writes gradient accumulators: every
node of the arena keeps its `data`, `_prev`, `_op`, closure tag and
`label` (and the arena its length), and any node not reachable from the
root through the operand relation keeps its gradient too. -/
theorem backward_mutates_only_grads (s : State) (r : NodeId)
    (hw : Wf s) (hr : r < s.length) :
    SameShape s (Value.backward s r) ∧
    ∀ i, ¬ Reaches s r i → (nd (Value.backward s r) i).grad = (nd s i).grad := by
  refine ⟨sameShape_backward s r, fun i hi => ?_⟩
  obtain ⟨-, -, -, hbnd, hreach, -⟩ := topo_spec s r hw hr
  have hout : ∀ v ∈ (Value.topo s r).reverse, ∀ a ∈ ruleSrcs (nd s v).rule,
      Reaches s r a := by
    intro v hv a ha
    rw [List.mem_reverse] at hv
    have hvlen : v < s.length := hbnd v hv
    have haprev : a ∈ (nd s v).prev := by
      rw [(hw v hvlen).2]
      exact List.mem_dedup.mpr ha
    exact (hreach v hv).step haprev
  have hb : Value.backward s r
      = (Value.topo s r).reverse.foldl backStep (setGrad s r 1) := rfl
  rw [hb,
    foldl_backStep_grad_outside s (Reaches s r) (Value.topo s r).reverse
      (setGrad s r 1) (sameShape_setGrad s r 1) hout i hi]
  exact grad_setGrad_ne s i r 1 (fun h => hi (h ▸ Reaches.refl r))

theorem backward_mutates_only_grads_witness :
    Wf chainS ∧ 4 < chainS.length ∧
    (SameShape chainS (Value.backward chainS 4) ∧
      ∀ i, ¬ Reaches chainS 4 i →
        (nd (Value.backward chainS 4) i).grad = (nd chainS i).grad) :=
  ⟨by decide, by decide, backward_mutates_only_grads chainS 4 (by decide) (by decide)⟩

/-- C5: dividing a node — or, via the reflected form, a raw number — by
a node whose value is exactly 0 raises synchronously (CPython
ZeroDivisionError from `0.0 ** -1`, the error §7 of the spec names
DomainError) inside `other ** -1`, before `Value(...)` runs, so no node
is created: the operation returns no new arena at all. -/
theorem div_by_zero_raises (s : State) (i j : NodeId) (c : ℚ)
    (h : (nd s j).data = 0) :
    Value.truediv s i j = Except.error PyErr.zeroDivisionError ∧
    Value.rtruedivRaw c s j = Except.error PyErr.zeroDivisionError := by
  have hp : Value.pow s j (-1) = Except.error PyErr.zeroDivisionError := by
    unfold Value.pow
    rw [if_pos ⟨h, by decide⟩]
  constructor
  · unfold Value.truediv
    rw [hp]
  · unfold Value.rtruedivRaw
    rw [hp]

theorem div_by_zero_raises_witness :
    (nd zeroS 0).data = 0 ∧
    (Value.truediv zeroS 0 0 = Except.error PyErr.zeroDivisionError ∧
      Value.rtruedivRaw 3 zeroS 0 = Except.error PyErr.zeroDivisionError) :=
  ⟨rfl, div_by_zero_raises zeroS 0 0 3 rfl⟩

theorem add_node_data (s : State) (i j : NodeId) :
    (nd (Value.add s i j).1 (Value.add s i j).2).data
      = (nd s i).data + (nd s j).data := by
  unfold Value.add push
  rw [nd_append_len]

/-- C7 counterexample: `c - a` with the raw number on the left raises
`TypeError`: `float.__sub__` returns NotImplemented and the class
defines no `__rsub__` (only `__radd__`, `__rmul__`, `__rtruediv__`
exist, engine.py lines 61-70), so no node is created. -/
theorem rsub_raw_left_raises :
    Value.rsub 3 twoS 0 = Except.error PyErr.typeError := rfl

/-- C7 (amended): `a - c` with the raw number on the right succeeds —
the raw value is negated and promoted to a leaf node, and the new sum
node's value is the difference `a.data - c`; but `c - a` with the raw
number on the left is *not* supported: no reflected subtraction is
defined, so Python raises TypeError and produces no node. -/
theorem sub_raw_right_value (s : State) (i : NodeId) (c : ℚ)
    (h : i < s.length) :
    (nd (Value.subRaw s i c).1 (Value.subRaw s i c).2).data
      = (nd s i).data - c := by
  have h1 : Value.subRaw s i c
      = Value.add (s ++ [⟨-c, 0, [], "", BackRule.none, ""⟩]) i s.length := rfl
  rw [h1, add_node_data, nd_append_lt s _ i h, nd_append_len]
  show (nd s i).data + -c = (nd s i).data - c
  rw [sub_eq_add_neg]

theorem sub_raw_right_value_witness :
    0 < twoS.length ∧
    (nd (Value.subRaw twoS 0 3).1 (Value.subRaw twoS 0 3).2).data
      = (nd twoS 0).data - 3 :=
  ⟨by decide, sub_raw_right_value twoS 0 3 (by decide)⟩

theorem qpow_neg_one_half : ((-1 : ℚ) : ℂ) ^ (((1/2 : ℚ)) : ℂ) = Complex.I := by
  have h1 : ((-1 : ℚ) : ℂ) = -1 := by push_cast; ring
  have h2 : (((1/2 : ℚ)) : ℂ) = 1/2 := by push_cast; ring
  rw [h1, h2, Complex.cpow_def_of_ne_zero (by norm_num), Complex.log_neg_one]
  have h3 : (Real.pi : ℂ) * Complex.I * (1/2) = ((Real.pi/2 : ℝ) : ℂ) * Complex.I := by
    push_cast
    ring
  rw [h3, Complex.exp_mul_I, ← Complex.ofReal_cos, ← Complex.ofReal_sin,
    Real.cos_pi_div_two, Real.sin_pi_div_two]
  simp

/-- C6 counterexample: `(-1.0) ** 0.5` as evaluated by engine.py line 51
does not raise at all — CPython falls back to complex power and returns
the principal value, here exactly `i` — and `Value.__pow__` then stores
that complex number in the new node without any check or signal. -/
theorem pow_neg_base_no_error :
    floatPow (-1) (1/2) ≠ Except.error PyErr.zeroDivisionError ∧
    floatPow (-1) (1/2) ≠ Except.error PyErr.typeError ∧
    floatPow (-1) (1/2) = Except.ok Complex.I := by
  have h : floatPow (-1) (1/2)
      = Except.ok (((-1 : ℚ) : ℂ) ^ (((1/2 : ℚ)) : ℂ)) := by
    unfold floatPow
    rw [if_neg (by decide)]
  rw [h, qpow_neg_one_half]
  exact ⟨fun hc => Except.noConfusion hc, fun hc => Except.noConfusion hc, rfl⟩

/-- C6 (amended): applying `**` to a negative base never raises, for any
exponent: the operation succeeds and the new node silently receives the
complex principal power `x ^ p` (for non-integer `p` a properly complex
number, e.g. `(-1) ** 0.5 = i`); the code contains no domain check and
no DomainError-style signal. -/
theorem pow_neg_base_succeeds (x p : ℚ) (h : x < 0) :
    floatPow x p = Except.ok ((x : ℂ) ^ ((p : ℚ) : ℂ)) := by
  unfold floatPow
  rw [if_neg (fun hc => absurd hc.1 (ne_of_lt h))]

theorem pow_neg_base_succeeds_witness :
    (-1 : ℚ) < 0 ∧
    floatPow (-1) (5/2) = Except.ok (((-1 : ℚ) : ℂ) ^ (((5/2 : ℚ)) : ℂ)) :=
  ⟨by decide, pow_neg_base_succeeds (-1) (5/2) (by decide)⟩

/-! ## Every graph built through the operations is well-formed

These lemmas justify the `Wf` hypothesis of the theorems above: Python
can only pass live `Value` objects as operands, i.e. indices below the
current arena length, and then each constructor preserves `Wf`. -/

theorem wf_push (s : State) (n : Value) (hw : Wf s)
    (hn : ∀ j ∈ ruleSrcs n.rule, j < s.length)
    (hp : n.prev = (ruleSrcs n.rule).dedup) :
    Wf (s ++ [n]) := by
  intro i hi
  rw [List.length_append, List.length_singleton] at hi
  rcases Nat.lt_or_ge i s.length with h | h
  · rw [nd_append_lt s _ i h]
    exact hw i h
  · have hlen : i = s.length := by omega
    subst hlen
    rw [nd_append_len]
    exact ⟨hn, hp⟩

theorem wf_leaf (s : State) (d : ℚ) (lab : String) (hw : Wf s) :
    Wf (Value.leaf s d lab).1 :=
  wf_push s _ hw (fun j hj => absurd hj (List.not_mem_nil j)) List.dedup_nil.symm

theorem wf_add (s : State) (i j : NodeId) (hw : Wf s)
    (hi : i < s.length) (hj : j < s.length) :
    Wf (Value.add s i j).1 := by
  refine wf_push s _ hw (fun k hk => ?_) rfl
  rcases List.mem_cons.mp hk with rfl | hk'
  · exact hi
  · rw [List.mem_singleton.mp hk']
    exact hj

theorem wf_mul (s : State) (i j : NodeId) (hw : Wf s)
    (hi : i < s.length) (hj : j < s.length) :
    Wf (Value.mul s i j).1 := by
  refine wf_push s _ hw (fun k hk => ?_) rfl
  rcases List.mem_cons.mp hk with rfl | hk'
  · exact hi
  · rw [List.mem_singleton.mp hk']
    exact hj

theorem wf_addRaw (s : State) (i : NodeId) (c : ℚ) (hw : Wf s)
    (hi : i < s.length) :
    Wf (Value.addRaw s i c).1 := by
  have h1 : Value.addRaw s i c
      = Value.add (s ++ [⟨c, 0, [], "", BackRule.none, ""⟩]) i s.length := rfl
  rw [h1]
  refine wf_add _ i s.length (wf_leaf s c "" hw) ?_ ?_ <;>
    rw [List.length_append, List.length_singleton]
  · exact Nat.lt_succ_of_lt hi
  · exact Nat.lt_succ_self _

theorem wf_mulRaw (s : State) (i : NodeId) (c : ℚ) (hw : Wf s)
    (hi : i < s.length) :
    Wf (Value.mulRaw s i c).1 := by
  have h1 : Value.mulRaw s i c
      = Value.mul (s ++ [⟨c, 0, [], "", BackRule.none, ""⟩]) i s.length := rfl
  rw [h1]
  refine wf_mul _ i s.length (wf_leaf s c "" hw) ?_ ?_ <;>
    rw [List.length_append, List.length_singleton]
  · exact Nat.lt_succ_of_lt hi
  · exact Nat.lt_succ_self _

theorem wf_relu (s : State) (i : NodeId) (hw : Wf s) (hi : i < s.length) :
    Wf (Value.relu s i).1 := by
  refine wf_push s _ hw (fun k hk => ?_) (dedup_single i).symm
  rw [List.mem_singleton.mp hk]
  exact hi
